import Mathlib

/-!
Shallow embedding of the pvs-breath-pacer core (src/src/BreathPacer.ts):
the regime validator, the timeline compiler `regimesToInstructions`, the
interpolator `guideHeight`, and the playback-engine state machine of the
`BreathPacer` class.  JS numbers are modelled as rationals; the random
draws consumed by `Math.random` are modelled as an explicit stream of
indices `d : Nat → Nat` into the sampled range; the unbounded `while`
loop of the compiler is modelled with explicit fuel (the loop is genuinely
partial: some draw streams make it run forever).
-/

/-- A vertex of the piecewise-linear track (`BreathPacerPoint` in the source). -/
structure BreathPacerPoint where
  t : ℚ
  h : ℚ
deriving DecidableEq, Repr

/-- The `holdPos` field of a regime. -/
inductive HoldPos where
  | postInhale
  | postExhale
deriving DecidableEq, Repr

/-- A requested breathing regime (`BreathPacerRegime` in the source). -/
structure BreathPacerRegime where
  durationMs : ℚ
  breathsPerMinute : ℚ
  holdPos : Option HoldPos := none
  randomize : Bool
deriving DecidableEq, Repr

namespace BreathPacerUtilities

/-- The quantity `(60 / breathsPerMinute) * 1000`, computed identically as a
local both in `validateRegime` and in `regimesToInstructions`. -/
def msPerBreath (r : BreathPacerRegime) : ℚ :=
  (60 / r.breathsPerMinute) * 1000

/-- Embedding of `BreathPacerUtilities.validateRegime`: the thrown `Error`
becomes `Except.error` with the source message. -/
def validateRegime (regime : BreathPacerRegime) : Except String Unit :=
  if regime.breathsPerMinute < 1 then
    Except.error "The minimum breaths per minute is 1."
  else if regime.breathsPerMinute > 60 then
    Except.error "The maximum breaths per minute is 60."
  else if regime.durationMs < 10000 then
    Except.error "The minimum duration is 10000 (10 seconds)."
  else if regime.durationMs < msPerBreath regime then
    Except.error "The minmimum number of breaths during the total duration is 1."
  else
    Except.ok ()

/-- Embedding of `BreathPacerUtilities.makeRange`: the loop
`for (let i = start; i <= end; i += stepSize) res.push(i)`.
For a positive step the iterates are `start + i * stepSize` while they stay
at most `stop`; for a non-positive step with `start ≤ stop` the JS loop never
terminates (the program only ever calls it with positive step), and we return
`[]` in that unreachable branch. -/
def makeRange (start stop stepSize : ℚ) : List ℚ :=
  if start ≤ stop then
    if 0 < stepSize then
      (List.range ((Int.floor ((stop - start) / stepSize)).toNat + 1)).map
        (fun i : ℕ => start + (i : ℚ) * stepSize)
    else []
  else []

/-- The local `segmentsPerBreath` of `regimesToInstructions`: 3 with a hold,
2 without. -/
def segmentsPerBreath (r : BreathPacerRegime) : ℚ :=
  if r.holdPos.isSome then 3 else 2

/-- The local `baseSegmentDur` of `regimesToInstructions`. -/
def baseSegmentDur (r : BreathPacerRegime) : ℚ :=
  msPerBreath r / segmentsPerBreath r

/-- The local `msPerSegmentRange` of `regimesToInstructions`. -/
def msPerSegmentRange (r : BreathPacerRegime) : List ℚ :=
  makeRange (baseSegmentDur r - 2000 / segmentsPerBreath r)
    (baseSegmentDur r + 2000 / segmentsPerBreath r)
    (100 / segmentsPerBreath r)

/-- The local closure `segmentDur` of `regimesToInstructions`, as a function
of the draw counter: the k-th call returns `msPerSegmentRange[d k]` when the
regime is randomized (`d k` models `Math.floor(Math.random() * length)`, so an
admissible stream has `d k < (msPerSegmentRange r).length`), and the constant
`baseSegmentDur` otherwise. -/
def segmentDur (r : BreathPacerRegime) (d : ℕ → ℕ) : ℕ → ℚ :=
  if r.randomize then fun k => (msPerSegmentRange r).getD (d k) 0
  else fun _ => baseSegmentDur r

/-- One iteration of the while-loop body of `regimesToInstructions`: starting
from previous time `tPrev` with draw counter `k`, push the inhale point, the
optional postInhale hold point, the exhale point, and the optional postExhale
hold point.  Returns the pushed points, the new current time and the new draw
counter. -/
def breathStep (hold : Option HoldPos) (seg : ℕ → ℚ) (k : ℕ) (tPrev : ℚ) :
    List BreathPacerPoint × ℚ × ℕ :=
  match hold with
  | none =>
      let t1 := tPrev + seg k
      let t2 := t1 + seg (k + 1)
      ([⟨t1, 1⟩, ⟨t2, 0⟩], t2, k + 2)
  | some HoldPos.postInhale =>
      let t1 := tPrev + seg k
      let t2 := t1 + seg (k + 1)
      let t3 := t2 + seg (k + 2)
      ([⟨t1, 1⟩, ⟨t2, 1⟩, ⟨t3, 0⟩], t3, k + 3)
  | some HoldPos.postExhale =>
      let t1 := tPrev + seg k
      let t2 := t1 + seg (k + 1)
      let t3 := t2 + seg (k + 2)
      ([⟨t1, 1⟩, ⟨t2, 0⟩, ⟨t3, 0⟩], t3, k + 3)

/-- The while-loop of `regimesToInstructions`:
`while (totalTime < r.durationMs) { ...one breath...; totalTime = t - startTime }`,
with explicit fuel, pushing onto the shared `points` array as the source does.
The argument `tPrev` tracks the time of the last pushed point; `none` means
the fuel ran out with the loop still running; `some (points, tEnd, kEnd)`
returns the grown points array, the final current time and the final draw
counter. -/
def breathLoop (D : ℚ) (hold : Option HoldPos) (seg : ℕ → ℚ) (startTime : ℚ) :
    ℕ → ℕ → ℚ → List BreathPacerPoint →
    Option (List BreathPacerPoint × ℚ × ℕ)
  | 0, k, tPrev, points =>
      if tPrev - startTime < D then none else some (points, tPrev, k)
  | fuel + 1, k, tPrev, points =>
      if tPrev - startTime < D then
        match breathStep hold seg k tPrev with
        | (pts, tNew, kNew) =>
            breathLoop D hold seg startTime fuel kNew tNew (points ++ pts)
      else some (points, tPrev, k)

/-- Result of compiling a regime list: a thrown validation error, fuel
exhaustion (the JS loop still running), or the points and boundaries. -/
inductive CompileResult where
  | error (msg : String)
  | timeout
  | ok (points : List BreathPacerPoint)
      (boundaries : List (ℚ × BreathPacerRegime))
deriving DecidableEq, Repr

/-- The `regimes.forEach` fold of `regimesToInstructions`, threading the
accumulated points, boundaries, cumulative boundary offset `curBoundary` and
the global draw counter. -/
def compileGo (fuel : ℕ) (d : ℕ → ℕ) :
    List BreathPacerRegime → ℕ → List BreathPacerPoint →
    List (ℚ × BreathPacerRegime) → ℚ → CompileResult
  | [], _, points, boundaries, _ => CompileResult.ok points boundaries
  | r :: rest, k, points, boundaries, curBoundary =>
      match validateRegime r with
      | Except.error m => CompileResult.error m
      | Except.ok _ =>
          match breathLoop r.durationMs r.holdPos (segmentDur r d)
              ((points.getLastD ⟨0, 0⟩).t) fuel k
              ((points.getLastD ⟨0, 0⟩).t) points with
          | none => CompileResult.timeout
          | some (points2, _, kEnd) =>
              compileGo fuel d rest kEnd points2
                (boundaries ++ [(curBoundary, r)])
                (curBoundary + ((points2.getLastD ⟨0, 0⟩).t - curBoundary))

/-- Embedding of `BreathPacerUtilities.regimesToInstructions`: starts from the
sentinel point `(0, 0)`, empty boundaries and `curBoundary = 0`. -/
def regimesToInstructions (fuel : ℕ) (d : ℕ → ℕ)
    (regimes : List BreathPacerRegime) : CompileResult :=
  compileGo fuel d regimes 0 [⟨0, 0⟩] [] 0

/-- The scan of `guideHeight` over consecutive point pairs, returning the
first pair with `left.t ≤ t ≤ right.t`. -/
def findBracket (points : List BreathPacerPoint) (t : ℚ) :
    Option (BreathPacerPoint × BreathPacerPoint) :=
  match points with
  | p :: q :: rest =>
      if p.t ≤ t ∧ t ≤ q.t then some (p, q) else findBracket (q :: rest) t
  | _ => none

/-- Embedding of `BreathPacerUtilities.guideHeight`.  When no pair brackets
`t`, the source takes `left = right = last` with `right.t = +∞`, so the JS
arithmetic gives slope `0 / ∞ = 0`, intercept `-0 + last.h` and value
`last.h`: the fallback returns the last point's height. -/
def guideHeight (points : List BreathPacerPoint) (t : ℚ) : ℚ :=
  match findBracket points t with
  | some (left, right) =>
      let m := (right.h - left.h) / (right.t - left.t)
      let b := -m * left.t + left.h
      m * t + b
  | none => (points.getLastD ⟨0, 0⟩).h

end BreathPacerUtilities

/-- The playback-relevant mutable state of the `BreathPacer` class
(drawing- and audio-only fields `lastH`, `lastT`, `lastSlope`, `cfg` are
outside the modelled core). -/
structure EngineState where
  points : List BreathPacerPoint
  regimeBoundaries : List (ℚ × BreathPacerRegime)
  running : Bool
  t : ℚ
  lastInstant : Option ℚ
deriving DecidableEq, Repr

namespace BreathPacer

open BreathPacerUtilities

/-- Embedding of `BreathPacer.resume`. -/
def resume (s : EngineState) : EngineState :=
  { s with running := true, lastInstant := none }

/-- Embedding of `BreathPacer.pause`. -/
def pause (s : EngineState) : EngineState :=
  { s with running := false, lastInstant := none }

/-- Embedding of `BreathPacer.start` (without the returned promise: the stored
resolver fires when `update` later reports completion). -/
def start (s : EngineState) : EngineState :=
  resume { s with t := 0 }

/-- Embedding of `BreathPacer.setInstructions`: recompiles the regimes and
replaces the points and boundary schedule.  `none` when the compiler throws
or runs out of fuel. -/
def setInstructions (fuel : ℕ) (d : ℕ → ℕ) (regimes : List BreathPacerRegime)
    (s : EngineState) : Option EngineState :=
  match regimesToInstructions fuel d regimes with
  | CompileResult.ok pts bds =>
      some { s with points := pts, regimeBoundaries := bds }
  | _ => none

/-- Embedding of `BreathPacer.notify`: pops the earliest due boundary and
returns the notifications delivered to subscribers. -/
def notify (s : EngineState) (curTime : ℚ) :
    EngineState × List (ℚ × BreathPacerRegime) :=
  if s.running then
    match s.regimeBoundaries with
    | [] => (s, [])
    | (b, r) :: rest =>
        if b ≤ curTime then ({ s with regimeBoundaries := rest }, [(curTime, r)])
        else (s, [])
  else (s, [])

/-- Embedding of one `BreathPacer.update(instant)` frame, minus the canvas
drawing: advance the clock when running, run `notify`, then either keep
animating or pause and fire the completion resolver.  Returns the new state,
the notifications fired, and whether the completion resolver was invoked. -/
def update (s : EngineState) (instant : ℚ) :
    EngineState × List (ℚ × BreathPacerRegime) × Bool :=
  let s1 :=
    if s.running then
      match s.lastInstant with
      | none => { s with lastInstant := some instant }
      | some li => { s with t := s.t + (instant - li), lastInstant := some instant }
    else s
  let n := notify s1 s1.t
  let s2 := n.1
  if s2.running then
    if s1.t ≤ (s2.points.getLastD ⟨0, 0⟩).t then (s2, n.2, false)
    else (pause s2, n.2, true)
  else (s2, n.2, false)

end BreathPacer

/-! ## Helper lemmas about the compiler -/

set_option maxRecDepth 8000

namespace BreathPacerUtilities

theorem segmentsPerBreath_pos (r : BreathPacerRegime) : 0 < segmentsPerBreath r := by
  unfold segmentsPerBreath; split <;> norm_num

/-- The sampled range always has exactly 41 entries `start + i * step`,
`i = 0..40`. -/
theorem msPerSegmentRange_eq (r : BreathPacerRegime) :
    msPerSegmentRange r = (List.range 41).map
      (fun i : ℕ => baseSegmentDur r - 2000 / segmentsPerBreath r +
        (i : ℚ) * (100 / segmentsPerBreath r)) := by
  have hs := segmentsPerBreath_pos r
  unfold msPerSegmentRange makeRange
  have hstep : (0:ℚ) < 100 / segmentsPerBreath r := by positivity
  have hle : baseSegmentDur r - 2000 / segmentsPerBreath r ≤
      baseSegmentDur r + 2000 / segmentsPerBreath r := by
    have : (0:ℚ) ≤ 2000 / segmentsPerBreath r := by positivity
    linarith
  rw [if_pos hle, if_pos hstep]
  have harg : (baseSegmentDur r + 2000 / segmentsPerBreath r -
      (baseSegmentDur r - 2000 / segmentsPerBreath r)) / (100 / segmentsPerBreath r) = 40 := by
    field_simp
    ring
  rw [harg]
  have hfl : Int.floor (40:ℚ) = 40 := by norm_num
  rw [hfl]
  rfl

theorem msPerSegmentRange_getElem (r : BreathPacerRegime) (i : ℕ) (hi : i < 41) :
    (msPerSegmentRange r)[i]? =
      some (baseSegmentDur r - 2000 / segmentsPerBreath r +
        (i : ℚ) * (100 / segmentsPerBreath r)) := by
  rw [msPerSegmentRange_eq, List.getElem?_map, List.getElem?_range hi]
  rfl

/-- Any admissible draw yields a segment duration at least
`baseSegmentDur - 2000 / segmentsPerBreath`. -/
theorem segmentDur_lower (r : BreathPacerRegime) (d : ℕ → ℕ)
    (hd : ∀ k, d k < 41) (k : ℕ) :
    baseSegmentDur r - 2000 / segmentsPerBreath r ≤ segmentDur r d k := by
  have hs := segmentsPerBreath_pos r
  by_cases hr : r.randomize
  · simp only [segmentDur, hr, if_true, List.getD_eq_getElem?_getD,
      msPerSegmentRange_getElem r (d k) (hd k), Option.getD_some]
    have : (0:ℚ) ≤ (d k : ℚ) * (100 / segmentsPerBreath r) := by positivity
    linarith
  · simp only [segmentDur, hr, if_false, Bool.false_eq_true]
    have : (0:ℚ) ≤ 2000 / segmentsPerBreath r := by positivity
    linarith

/-- Any admissible draw yields a segment duration at most
`baseSegmentDur + 2000 / segmentsPerBreath`. -/
theorem segmentDur_upper (r : BreathPacerRegime) (d : ℕ → ℕ)
    (hd : ∀ k, d k < 41) (k : ℕ) :
    segmentDur r d k ≤ baseSegmentDur r + 2000 / segmentsPerBreath r := by
  have hs := segmentsPerBreath_pos r
  by_cases hr : r.randomize
  · simp only [segmentDur, hr, if_true, List.getD_eq_getElem?_getD,
      msPerSegmentRange_getElem r (d k) (hd k), Option.getD_some]
    have hdk : (d k : ℚ) ≤ 40 := by
      exact_mod_cast Nat.le_of_lt_succ (hd k)
    have hstep : (0:ℚ) < 100 / segmentsPerBreath r := by positivity
    have : (d k : ℚ) * (100 / segmentsPerBreath r) ≤ 40 * (100 / segmentsPerBreath r) := by
      exact mul_le_mul_of_nonneg_right hdk (le_of_lt hstep)
    have h40 : 40 * (100 / segmentsPerBreath r) = 4000 / segmentsPerBreath r := by ring
    have h2 : (2000:ℚ) / segmentsPerBreath r + 2000 / segmentsPerBreath r =
        4000 / segmentsPerBreath r := by ring
    linarith
  · simp only [segmentDur, hr, if_false, Bool.false_eq_true]
    have : (0:ℚ) ≤ 2000 / segmentsPerBreath r := by positivity
    linarith

theorem validateRegime_ok (r : BreathPacerRegime)
    (h : validateRegime r = Except.ok ()) :
    1 ≤ r.breathsPerMinute ∧ r.breathsPerMinute ≤ 60 ∧
      10000 ≤ r.durationMs ∧ msPerBreath r ≤ r.durationMs := by
  unfold validateRegime at h
  split at h
  · exact absurd h (by simp)
  split at h
  · exact absurd h (by simp)
  split at h
  · exact absurd h (by simp)
  split at h
  · exact absurd h (by simp)
  refine ⟨?_, ?_, ?_, ?_⟩
  · linarith [not_lt.mp (by assumption : ¬ r.breathsPerMinute < 1)]
  · exact not_lt.mp (by assumption : ¬ r.breathsPerMinute > 60)
  · exact not_lt.mp (by assumption : ¬ r.durationMs < 10000)
  · exact not_lt.mp (by assumption : ¬ r.durationMs < msPerBreath r)

end BreathPacerUtilities

namespace BreathPacerUtilities

theorem getLastD_append_eq {α : Type} (l1 l2 : List α) (a : α) :
    (l1 ++ l2).getLastD a = l2.getLastD (l1.getLastD a) := by
  induction l1 generalizing a with
  | nil => rfl
  | cons x l1 ih =>
      rw [List.cons_append, List.getLastD_cons, ih, List.getLastD_cons]

/-- One breath advances the clock by at most `segmentsPerBreath` times any
upper bound on the sampled segment durations. -/
theorem breathStep_le (hold : Option HoldPos) (seg : ℕ → ℚ) (k : ℕ) (tPrev : ℚ)
    (M : ℚ) (hM : ∀ i, seg i ≤ M) :
    (breathStep hold seg k tPrev).2.1 ≤
      tPrev + (if hold.isSome then (3:ℚ) else 2) * M := by
  rcases hold with _ | h
  · simp only [breathStep, Option.isSome_none, if_false, Bool.false_eq_true]
    linarith [hM k, hM (k + 1)]
  · cases h <;>
      simp only [breathStep, Option.isSome_some, if_true] <;>
      linarith [hM k, hM (k + 1), hM (k + 2)]

/-- One breath advances the clock by at least twice any nonnegative lower
bound on the sampled segment durations. -/
theorem breathStep_ge (hold : Option HoldPos) (seg : ℕ → ℚ) (k : ℕ) (tPrev : ℚ)
    (δ : ℚ) (hδ : ∀ i, δ ≤ seg i) (h0 : 0 ≤ δ) :
    tPrev + 2 * δ ≤ (breathStep hold seg k tPrev).2.1 := by
  rcases hold with _ | h
  · simp only [breathStep]
    linarith [hδ k, hδ (k + 1)]
  · cases h <;> simp only [breathStep] <;>
      linarith [hδ k, hδ (k + 1), hδ (k + 2)]

/-- With a constant segment duration, one breath advances the clock by
exactly `segmentsPerBreath * b`. -/
theorem breathStep_const (hold : Option HoldPos) (b : ℚ) (k : ℕ) (tPrev : ℚ) :
    (breathStep hold (fun _ => b) k tPrev).2.1 =
      tPrev + (if hold.isSome then (3:ℚ) else 2) * b := by
  rcases hold with _ | h
  · simp only [breathStep, Option.isSome_none, if_false, Bool.false_eq_true]
    ring
  · cases h <;> simp only [breathStep, Option.isSome_some, if_true] <;> ring

theorem breathStep_ne_nil (hold : Option HoldPos) (seg : ℕ → ℚ) (k : ℕ) (tPrev : ℚ) :
    (breathStep hold seg k tPrev).1 ≠ [] := by
  rcases hold with _ | h
  · simp [breathStep]
  · cases h <;> simp [breathStep]

theorem breathStep_getLastD (hold : Option HoldPos) (seg : ℕ → ℚ) (k : ℕ)
    (tPrev : ℚ) (z : BreathPacerPoint) :
    (((breathStep hold seg k tPrev).1).getLastD z).t =
      (breathStep hold seg k tPrev).2.1 := by
  rcases hold with _ | h
  · simp [breathStep, List.getLastD_cons]
  · cases h <;> simp [breathStep, List.getLastD_cons]

/-- The head of the points pushed by one breath is the inhale point at
`tPrev + seg k`. -/
theorem breathStep_head (hold : Option HoldPos) (seg : ℕ → ℚ) (k : ℕ) (tPrev : ℚ) :
    (((breathStep hold seg k tPrev).1).map BreathPacerPoint.t).head? =
      some (tPrev + seg k) := by
  rcases hold with _ | h
  · simp [breathStep]
  · cases h <;> simp [breathStep]

/-- With positive segment durations, the times pushed by one breath strictly
increase, starting strictly after `tPrev`. -/
theorem breathStep_chain (hold : Option HoldPos) (seg : ℕ → ℚ) (k : ℕ)
    (tPrev : ℚ) (hpos : ∀ i, 0 < seg i) :
    List.Chain' (· < ·)
      (tPrev :: ((breathStep hold seg k tPrev).1).map BreathPacerPoint.t) := by
  rcases hold with _ | h
  · simp only [breathStep, List.map_cons, List.map_nil, List.chain'_cons,
      List.chain'_singleton, and_true]
    exact ⟨by linarith [hpos k], by linarith [hpos (k + 1)]⟩
  · cases h <;>
      simp only [breathStep, List.map_cons, List.map_nil, List.chain'_cons,
        List.chain'_singleton, and_true] <;>
      exact ⟨by linarith [hpos k], by linarith [hpos (k + 1)],
        by linarith [hpos (k + 2)]⟩

end BreathPacerUtilities

namespace BreathPacerUtilities

/-- When the loop guard already fails, the loop exits at once with the
current state, for any fuel. -/
theorem breathLoop_exit_now (D : ℚ) (hold : Option HoldPos) (seg : ℕ → ℚ)
    (startTime : ℚ) (fuel k : ℕ) (tPrev : ℚ) (acc : List BreathPacerPoint)
    (h : ¬ tPrev - startTime < D) :
    breathLoop D hold seg startTime fuel k tPrev acc = some (acc, tPrev, k) := by
  cases fuel <;> simp [breathLoop, h]

/-- When the loop returns, the accumulated regime time has reached the
requested duration. -/
theorem breathLoop_exit (D : ℚ) (hold : Option HoldPos) (seg : ℕ → ℚ)
    (startTime : ℚ) (fuel : ℕ) :
    ∀ (k : ℕ) (tPrev : ℚ) (acc P : List BreathPacerPoint) (tEnd : ℚ) (kEnd : ℕ),
      breathLoop D hold seg startTime fuel k tPrev acc = some (P, tEnd, kEnd) →
      D ≤ tEnd - startTime := by
  induction fuel with
  | zero =>
      intro k tPrev acc P tEnd kEnd h
      rw [breathLoop] at h
      split at h
      · cases h
      · simp only [Option.some.injEq, Prod.mk.injEq] at h
        obtain ⟨-, h2, -⟩ := h
        subst h2
        linarith [not_lt.mp (by assumption : ¬ tPrev - startTime < D)]
  | succ fuel ih =>
      intro k tPrev acc P tEnd kEnd h
      rw [breathLoop] at h
      split at h
      · rcases hbs : breathStep hold seg k tPrev with ⟨pts, tNew, kNew⟩
        rw [hbs] at h
        exact ih kNew tNew (acc ++ pts) P tEnd kEnd h
      · simp only [Option.some.injEq, Prod.mk.injEq] at h
        obtain ⟨-, h2, -⟩ := h
        subst h2
        linarith [not_lt.mp (by assumption : ¬ tPrev - startTime < D)]

/-- The final current time of the loop is the time of the last point of the
returned array, provided this held at entry. -/
theorem breathLoop_getLastD (D : ℚ) (hold : Option HoldPos) (seg : ℕ → ℚ)
    (startTime : ℚ) (z : BreathPacerPoint) (fuel : ℕ) :
    ∀ (k : ℕ) (tPrev : ℚ) (acc P : List BreathPacerPoint) (tEnd : ℚ) (kEnd : ℕ),
      breathLoop D hold seg startTime fuel k tPrev acc = some (P, tEnd, kEnd) →
      (acc.getLastD z).t = tPrev →
      (P.getLastD z).t = tEnd := by
  induction fuel with
  | zero =>
      intro k tPrev acc P tEnd kEnd h hacc
      rw [breathLoop] at h
      split at h
      · cases h
      · simp only [Option.some.injEq, Prod.mk.injEq] at h
        obtain ⟨h1, h2, -⟩ := h
        subst h1; subst h2
        exact hacc
  | succ fuel ih =>
      intro k tPrev acc P tEnd kEnd h hacc
      rw [breathLoop] at h
      split at h
      · rcases hbs : breathStep hold seg k tPrev with ⟨pts, tNew, kNew⟩
        rw [hbs] at h
        refine ih kNew tNew (acc ++ pts) P tEnd kEnd h ?_
        rw [getLastD_append_eq]
        have := breathStep_getLastD hold seg k tPrev (acc.getLastD z)
        rw [hbs] at this
        exact this
      · simp only [Option.some.injEq, Prod.mk.injEq] at h
        obtain ⟨h1, h2, -⟩ := h
        subst h1; subst h2
        exact hacc

/-- The loop never loses the points already accumulated: the result list is
nonempty whenever the accumulator was. -/
theorem breathLoop_ne_nil (D : ℚ) (hold : Option HoldPos) (seg : ℕ → ℚ)
    (startTime : ℚ) (fuel : ℕ) :
    ∀ (k : ℕ) (tPrev : ℚ) (acc P : List BreathPacerPoint) (tEnd : ℚ) (kEnd : ℕ),
      breathLoop D hold seg startTime fuel k tPrev acc = some (P, tEnd, kEnd) →
      acc ≠ [] → P ≠ [] := by
  induction fuel with
  | zero =>
      intro k tPrev acc P tEnd kEnd h hne
      rw [breathLoop] at h
      split at h
      · cases h
      · simp only [Option.some.injEq, Prod.mk.injEq] at h
        obtain ⟨h1, -, -⟩ := h
        subst h1
        exact hne
  | succ fuel ih =>
      intro k tPrev acc P tEnd kEnd h hne
      rw [breathLoop] at h
      split at h
      · rcases hbs : breathStep hold seg k tPrev with ⟨pts, tNew, kNew⟩
        rw [hbs] at h
        exact ih kNew tNew (acc ++ pts) P tEnd kEnd h (by simp [hne])
      · simp only [Option.some.injEq, Prod.mk.injEq] at h
        obtain ⟨h1, -, -⟩ := h
        subst h1
        exact hne

/-- More fuel never changes a run that already finished. -/
theorem breathLoop_mono (D : ℚ) (hold : Option HoldPos) (seg : ℕ → ℚ)
    (startTime : ℚ) (fuel : ℕ) :
    ∀ (fuel2 : ℕ) (k : ℕ) (tPrev : ℚ) (acc : List BreathPacerPoint)
      (res : List BreathPacerPoint × ℚ × ℕ),
      fuel ≤ fuel2 →
      breathLoop D hold seg startTime fuel k tPrev acc = some res →
      breathLoop D hold seg startTime fuel2 k tPrev acc = some res := by
  induction fuel with
  | zero =>
      intro fuel2 k tPrev acc res hle h
      rw [breathLoop] at h
      split at h
      · cases h
      · rw [breathLoop_exit_now _ _ _ _ _ _ _ _ (by assumption)]
        exact h
  | succ fuel ih =>
      intro fuel2 k tPrev acc res hle h
      rw [breathLoop] at h
      split at h
      · rcases hbs : breathStep hold seg k tPrev with ⟨pts, tNew, kNew⟩
        rw [hbs] at h
        obtain ⟨fuel3, rfl⟩ : ∃ fuel3, fuel2 = fuel3 + 1 := by
          cases fuel2 with
          | zero => omega
          | succ n => exact ⟨n, rfl⟩
        rw [breathLoop]
        rw [if_pos (by assumption), hbs]
        exact ih fuel3 kNew tNew (acc ++ pts) res (by omega) h
      · rw [breathLoop_exit_now _ _ _ _ _ _ _ _ (by assumption)]
        exact h

end BreathPacerUtilities

namespace BreathPacerUtilities

/-- With positive segment durations the loop preserves strict monotonicity of
the point times. -/
theorem breathLoop_chain (D : ℚ) (hold : Option HoldPos) (seg : ℕ → ℚ)
    (startTime : ℚ) (z : BreathPacerPoint) (hpos : ∀ i, 0 < seg i) (fuel : ℕ) :
    ∀ (k : ℕ) (tPrev : ℚ) (acc P : List BreathPacerPoint) (tEnd : ℚ) (kEnd : ℕ),
      breathLoop D hold seg startTime fuel k tPrev acc = some (P, tEnd, kEnd) →
      (acc.getLastD z).t = tPrev →
      List.Chain' (· < ·) (acc.map BreathPacerPoint.t) →
      List.Chain' (· < ·) (P.map BreathPacerPoint.t) := by
  induction fuel with
  | zero =>
      intro k tPrev acc P tEnd kEnd h hacc hchain
      rw [breathLoop] at h
      split at h
      · cases h
      · simp only [Option.some.injEq, Prod.mk.injEq] at h
        obtain ⟨h1, -, -⟩ := h
        subst h1
        exact hchain
  | succ fuel ih =>
      intro k tPrev acc P tEnd kEnd h hacc hchain
      rw [breathLoop] at h
      split at h
      · rcases hbs : breathStep hold seg k tPrev with ⟨pts, tNew, kNew⟩
        rw [hbs] at h
        have hstep := breathStep_chain hold seg k tPrev hpos
        rw [hbs] at hstep
        refine ih kNew tNew (acc ++ pts) P tEnd kEnd h ?_ ?_
        · rw [getLastD_append_eq]
          have := breathStep_getLastD hold seg k tPrev (acc.getLastD z)
          rw [hbs] at this
          exact this
        · rw [List.map_append]
          refine List.Chain'.append hchain hstep.tail ?_
          intro x hx y hy
          rcases List.eq_nil_or_concat acc with rfl | ⟨l0, a0, rfl⟩
          · simp at hx
          · simp only [List.concat_eq_append] at hacc hx
            have hlast : ((l0 ++ [a0]).map BreathPacerPoint.t).getLast? =
                some a0.t := by
              rw [List.getLast?_map]
              simp
            rw [hlast] at hx
            simp only [Option.mem_def, Option.some.injEq] at hx
            subst hx
            have hx' : a0.t = tPrev := by
              rw [getLastD_append_eq] at hacc
              simpa using hacc
            have hhead := breathStep_head hold seg k tPrev
            rw [hbs] at hhead
            rw [hhead] at hy
            simp only [Option.mem_def, Option.some.injEq] at hy
            subst hy
            rw [hx']
            linarith [hpos k]
      · simp only [Option.some.injEq, Prod.mk.injEq] at h
        obtain ⟨h1, -, -⟩ := h
        subst h1
        exact hchain

/-- With non-positive segment durations and the guard initially true, the
loop never terminates: any fuel is exhausted. -/
theorem breathLoop_none (D : ℚ) (hold : Option HoldPos) (seg : ℕ → ℚ)
    (startTime : ℚ) (hnonpos : ∀ i, seg i ≤ 0) (fuel : ℕ) :
    ∀ (k : ℕ) (tPrev : ℚ) (acc : List BreathPacerPoint),
      tPrev - startTime < D →
      breathLoop D hold seg startTime fuel k tPrev acc = none := by
  induction fuel with
  | zero =>
      intro k tPrev acc ht
      rw [breathLoop, if_pos ht]
  | succ fuel ih =>
      intro k tPrev acc ht
      rw [breathLoop, if_pos ht]
      rcases hbs : breathStep hold seg k tPrev with ⟨pts, tNew, kNew⟩
      have hle := breathStep_le hold seg k tPrev 0 hnonpos
      rw [hbs] at hle
      simp only [mul_zero, add_zero] at hle
      exact ih kNew tNew (acc ++ pts) (by linarith)

/-- With segment durations bounded below by a positive `δ`, enough fuel makes
the loop terminate. -/
theorem breathLoop_total (D : ℚ) (hold : Option HoldPos) (seg : ℕ → ℚ)
    (startTime : ℚ) (δ : ℚ) (hδ : ∀ i, δ ≤ seg i) (h0 : 0 < δ) (fuel : ℕ) :
    ∀ (k : ℕ) (tPrev : ℚ) (acc : List BreathPacerPoint),
      D - (tPrev - startTime) ≤ fuel * (2 * δ) →
      ∃ res, breathLoop D hold seg startTime fuel k tPrev acc = some res := by
  induction fuel with
  | zero =>
      intro k tPrev acc hfuel
      simp only [Nat.cast_zero, zero_mul] at hfuel
      have hng : ¬ tPrev - startTime < D := by linarith
      exact ⟨(acc, tPrev, k), by rw [breathLoop, if_neg hng]⟩
  | succ fuel ih =>
      intro k tPrev acc hfuel
      by_cases hg : tPrev - startTime < D
      · rw [breathLoop, if_pos hg]
        rcases hbs : breathStep hold seg k tPrev with ⟨pts, tNew, kNew⟩
        have hge := breathStep_ge hold seg k tPrev δ hδ h0.le
        rw [hbs] at hge
        refine ih kNew tNew (acc ++ pts) ?_
        have hcast : ((fuel + 1 : ℕ) : ℚ) * (2 * δ) = (fuel : ℚ) * (2 * δ) + 2 * δ := by
          push_cast
          ring
        rw [hcast] at hfuel
        linarith
      · exact ⟨(acc, tPrev, k), by rw [breathLoop, if_neg hg]⟩

/-- With segment durations bounded above by `M` and the guard initially true,
the loop overruns the requested duration by less than one full breath. -/
theorem breathLoop_upper (D : ℚ) (hold : Option HoldPos) (seg : ℕ → ℚ)
    (startTime : ℚ) (M : ℚ) (hM : ∀ i, seg i ≤ M) (fuel : ℕ) :
    ∀ (k : ℕ) (tPrev : ℚ) (acc P : List BreathPacerPoint) (tEnd : ℚ) (kEnd : ℕ),
      breathLoop D hold seg startTime fuel k tPrev acc = some (P, tEnd, kEnd) →
      tPrev - startTime < D →
      tEnd - startTime < D + (if hold.isSome then (3:ℚ) else 2) * M := by
  induction fuel with
  | zero =>
      intro k tPrev acc P tEnd kEnd h hg
      rw [breathLoop, if_pos hg] at h
      cases h
  | succ fuel ih =>
      intro k tPrev acc P tEnd kEnd h hg
      rw [breathLoop, if_pos hg] at h
      rcases hbs : breathStep hold seg k tPrev with ⟨pts, tNew, kNew⟩
      rw [hbs] at h
      have hle := breathStep_le hold seg k tPrev M hM
      rw [hbs] at hle
      have h2 : breathLoop D hold seg startTime fuel kNew tNew (acc ++ pts) =
          some (P, tEnd, kEnd) := h
      by_cases hg2 : tNew - startTime < D
      · exact ih kNew tNew (acc ++ pts) P tEnd kEnd h2 hg2
      · rw [breathLoop_exit_now _ _ _ _ _ _ _ _ hg2] at h2
        simp only [Option.some.injEq, Prod.mk.injEq] at h2
        obtain ⟨-, h3, -⟩ := h2
        subst h3
        linarith

/-- With the constant (non-randomized) segment duration, the loop advances in
exact multiples of one breath length and stops at the first multiple reaching
the requested duration. -/
theorem breathLoop_const_spec (D : ℚ) (hold : Option HoldPos) (b : ℚ)
    (startTime : ℚ) (fuel : ℕ) :
    ∀ (k : ℕ) (tPrev : ℚ) (acc P : List BreathPacerPoint) (tEnd : ℚ) (kEnd : ℕ),
      breathLoop D hold (fun _ => b) startTime fuel k tPrev acc =
        some (P, tEnd, kEnd) →
      ∃ n : ℕ, tEnd = tPrev + n * ((if hold.isSome then (3:ℚ) else 2) * b) ∧
        (n = 0 → ¬ tPrev - startTime < D) ∧
        (∀ j : ℕ, j + 1 = n →
          tPrev + j * ((if hold.isSome then (3:ℚ) else 2) * b) - startTime < D) := by
  induction fuel with
  | zero =>
      intro k tPrev acc P tEnd kEnd h
      rw [breathLoop] at h
      split at h
      · cases h
      · simp only [Option.some.injEq, Prod.mk.injEq] at h
        obtain ⟨-, h2, -⟩ := h
        subst h2
        exact ⟨0, by push_cast; ring, fun _ => by assumption, by omega⟩
  | succ fuel ih =>
      intro k tPrev acc P tEnd kEnd h
      rw [breathLoop] at h
      split at h
      · rcases hbs : breathStep hold (fun _ => b) k tPrev with ⟨pts, tNew, kNew⟩
        rw [hbs] at h
        have hconst := breathStep_const hold b k tPrev
        rw [hbs] at hconst
        simp only at hconst
        obtain ⟨n, hEnd, hzero, hmin⟩ := ih kNew tNew (acc ++ pts) P tEnd kEnd h
        refine ⟨n + 1, ?_, by omega, ?_⟩
        · rw [hEnd, hconst]
          push_cast
          ring
        · intro j hj
          have hj2 : j = n := by omega
          rw [hj2]
          cases n with
          | zero =>
              simp only [Nat.cast_zero, zero_mul, add_zero]
              exact by assumption
          | succ m =>
              have := hmin m rfl
              rw [hconst] at this
              have hcast : tPrev + (↑(m + 1) : ℚ) *
                  ((if hold.isSome then (3:ℚ) else 2) * b) =
                  tPrev + (if hold.isSome then (3:ℚ) else 2) * b +
                    (m : ℚ) * ((if hold.isSome then (3:ℚ) else 2) * b) := by
                push_cast
                ring
              rw [hcast]
              exact this
      · simp only [Option.some.injEq, Prod.mk.injEq] at h
        obtain ⟨-, h2, -⟩ := h
        subst h2
        exact ⟨0, by push_cast; ring, fun _ => by assumption, by omega⟩

end BreathPacerUtilities

namespace BreathPacerUtilities

/-- Inversion of one `forEach` iteration of the compiler that ends in
success. -/
theorem compileGo_cons_ok (fuel : ℕ) (d : ℕ → ℕ) (r : BreathPacerRegime)
    (rest : List BreathPacerRegime) (k : ℕ) (acc : List BreathPacerPoint)
    (bds : List (ℚ × BreathPacerRegime)) (curB : ℚ)
    (P : List BreathPacerPoint) (B : List (ℚ × BreathPacerRegime))
    (h : compileGo fuel d (r :: rest) k acc bds curB = CompileResult.ok P B) :
    validateRegime r = Except.ok () ∧
    ∃ P2 t2 k2,
      breathLoop r.durationMs r.holdPos (segmentDur r d)
          ((acc.getLastD ⟨0, 0⟩).t) fuel k ((acc.getLastD ⟨0, 0⟩).t) acc =
        some (P2, t2, k2) ∧
      compileGo fuel d rest k2 P2 (bds ++ [(curB, r)])
          (curB + ((P2.getLastD ⟨0, 0⟩).t - curB)) = CompileResult.ok P B := by
  rw [compileGo] at h
  split at h
  · cases h
  next u hv =>
    split at h
    · cases h
    next P2 t2 k2 hbl =>
      refine ⟨?_, P2, t2, k2, hbl, h⟩
      rw [hv]

/-- Forward evaluation of one successful `forEach` iteration. -/
theorem compileGo_cons_eq (fuel : ℕ) (d : ℕ → ℕ) (r : BreathPacerRegime)
    (rest : List BreathPacerRegime) (k : ℕ) (acc : List BreathPacerPoint)
    (bds : List (ℚ × BreathPacerRegime)) (curB : ℚ)
    (P2 : List BreathPacerPoint) (t2 : ℚ) (k2 : ℕ)
    (hv : validateRegime r = Except.ok ())
    (hbl : breathLoop r.durationMs r.holdPos (segmentDur r d)
        ((acc.getLastD ⟨0, 0⟩).t) fuel k ((acc.getLastD ⟨0, 0⟩).t) acc =
      some (P2, t2, k2)) :
    compileGo fuel d (r :: rest) k acc bds curB =
      compileGo fuel d rest k2 P2 (bds ++ [(curB, r)])
        (curB + ((P2.getLastD ⟨0, 0⟩).t - curB)) := by
  rw [compileGo, hv, hbl]

/-- More fuel never changes a successful compilation. -/
theorem compileGo_mono (d : ℕ → ℕ) (rs : List BreathPacerRegime) :
    ∀ (fuel fuel2 k : ℕ) (acc : List BreathPacerPoint)
      (bds : List (ℚ × BreathPacerRegime)) (curB : ℚ)
      (P : List BreathPacerPoint) (B : List (ℚ × BreathPacerRegime)),
      fuel ≤ fuel2 →
      compileGo fuel d rs k acc bds curB = CompileResult.ok P B →
      compileGo fuel2 d rs k acc bds curB = CompileResult.ok P B := by
  induction rs with
  | nil =>
      intro fuel fuel2 k acc bds curB P B hle h
      rw [compileGo] at h
      rw [compileGo]
      exact h
  | cons r rest ih =>
      intro fuel fuel2 k acc bds curB P B hle h
      obtain ⟨hv, P2, t2, k2, hbl, hrest⟩ :=
        compileGo_cons_ok fuel d r rest k acc bds curB P B h
      have hbl2 := breathLoop_mono _ _ _ _ fuel fuel2 k _ acc _ hle hbl
      rw [compileGo_cons_eq fuel2 d r rest k acc bds curB P2 t2 k2 hv hbl2]
      exact ih fuel fuel2 k2 P2 (bds ++ [(curB, r)]) _ P B hle hrest

end BreathPacerUtilities

namespace BreathPacerUtilities

/-- The compiler preserves strict monotonicity of point times when all
drawable segment durations are positive. -/
theorem compileGo_chain (d : ℕ → ℕ) (rs : List BreathPacerRegime) :
    ∀ (fuel k : ℕ) (acc : List BreathPacerPoint)
      (bds : List (ℚ × BreathPacerRegime)) (curB : ℚ)
      (P : List BreathPacerPoint) (B : List (ℚ × BreathPacerRegime)),
      (∀ r ∈ rs, ∀ i, 0 < segmentDur r d i) →
      compileGo fuel d rs k acc bds curB = CompileResult.ok P B →
      acc ≠ [] →
      List.Chain' (· < ·) (acc.map BreathPacerPoint.t) →
      P ≠ [] ∧ List.Chain' (· < ·) (P.map BreathPacerPoint.t) := by
  induction rs with
  | nil =>
      intro fuel k acc bds curB P B hpos h hne hchain
      rw [compileGo] at h
      simp only [CompileResult.ok.injEq] at h
      obtain ⟨h1, -⟩ := h
      subst h1
      exact ⟨hne, hchain⟩
  | cons r rest ih =>
      intro fuel k acc bds curB P B hpos h hne hchain
      obtain ⟨hv, P2, t2, k2, hbl, hrest⟩ :=
        compileGo_cons_ok fuel d r rest k acc bds curB P B h
      have hposr : ∀ i, 0 < segmentDur r d i := hpos r (by simp)
      have hchain2 := breathLoop_chain r.durationMs r.holdPos (segmentDur r d)
        ((acc.getLastD ⟨0, 0⟩).t) ⟨0, 0⟩ hposr fuel k _ acc P2 t2 k2 hbl rfl hchain
      have hne2 := breathLoop_ne_nil r.durationMs r.holdPos (segmentDur r d)
        ((acc.getLastD ⟨0, 0⟩).t) fuel k _ acc P2 t2 k2 hbl hne
      exact ih fuel k2 P2 (bds ++ [(curB, r)]) _ P B
        (fun r2 hr2 => hpos r2 (by simp [hr2])) hrest hne2 hchain2

/-- Specification of the boundary schedule produced by the compiler: the new
boundaries extend the accumulator, are aligned with the regimes, start at the
running offset, are monotone, and each is at least the requested durations of
the earlier regimes past the offset. -/
theorem compileGo_boundary_spec (d : ℕ → ℕ) (rs : List BreathPacerRegime) :
    ∀ (fuel k : ℕ) (acc : List BreathPacerPoint)
      (bds : List (ℚ × BreathPacerRegime)) (curB : ℚ)
      (P : List BreathPacerPoint) (B : List (ℚ × BreathPacerRegime)),
      compileGo fuel d rs k acc bds curB = CompileResult.ok P B →
      (acc.getLastD ⟨0, 0⟩).t = curB →
      ∃ newBds, B = bds ++ newBds ∧ newBds.length = rs.length ∧
        (∀ (i : ℕ) (hi : i < newBds.length),
          curB + ((rs.take i).map BreathPacerRegime.durationMs).sum ≤
            (newBds.get ⟨i, hi⟩).1) ∧
        List.Chain' (· ≤ ·) (newBds.map Prod.fst) ∧
        (∀ hne : newBds ≠ [], (newBds.head hne).1 = curB) := by
  induction rs with
  | nil =>
      intro fuel k acc bds curB P B h hinv
      rw [compileGo] at h
      simp only [CompileResult.ok.injEq] at h
      obtain ⟨-, h2⟩ := h
      subst h2
      refine ⟨[], by simp, by simp, ?_, by simp, ?_⟩
      · intro i hi
        simp at hi
      · intro hne
        simp at hne
  | cons r rest ih =>
      intro fuel k acc bds curB P B h hinv
      obtain ⟨hv, P2, t2, k2, hbl, hrest⟩ :=
        compileGo_cons_ok fuel d r rest k acc bds curB P B h
      have hx : (P2.getLastD ⟨0, 0⟩).t = t2 :=
        breathLoop_getLastD _ _ _ _ ⟨0, 0⟩ fuel k _ acc P2 t2 k2 hbl rfl
      have hDle : r.durationMs ≤ t2 - curB := by
        have := breathLoop_exit r.durationMs r.holdPos (segmentDur r d)
          ((acc.getLastD ⟨0, 0⟩).t) fuel k _ acc P2 t2 k2 hbl
        rw [hinv] at this
        exact this
      have hD10 : (10000:ℚ) ≤ r.durationMs := (validateRegime_ok r hv).2.2.1
      have hinv2 : (P2.getLastD ⟨0, 0⟩).t = curB + ((P2.getLastD ⟨0, 0⟩).t - curB) := by
        ring
      obtain ⟨newBds2, hB, hlen, hidx, hchain, hhead⟩ :=
        ih fuel k2 P2 (bds ++ [(curB, r)]) _ P B hrest hinv2
      have hcurB2 : curB + ((P2.getLastD ⟨0, 0⟩).t - curB) = t2 := by
        rw [hx]; ring
      refine ⟨(curB, r) :: newBds2, ?_, by simp [hlen], ?_, ?_, ?_⟩
      · rw [hB, List.append_assoc]
        rfl
      · intro i hi
        cases i with
        | zero =>
            simp
        | succ j =>
            have hj : j < newBds2.length := by
              simp at hi
              omega
            have hig := hidx j hj
            rw [hcurB2] at hig
            have hget : (((curB, r) :: newBds2).get ⟨j + 1, hi⟩) = newBds2.get ⟨j, hj⟩ := by
              simp [List.get_cons_succ]
            rw [hget]
            have hsum : ((r :: rest).take (j + 1)).map BreathPacerRegime.durationMs =
                r.durationMs :: ((rest.take j).map BreathPacerRegime.durationMs) := by
              simp
            rw [hsum]
            rw [List.sum_cons]
            linarith
      · rw [List.map_cons]
        rw [List.chain'_cons']
        refine ⟨?_, hchain⟩
        intro b hb
        cases newBds2 with
        | nil => simp at hb
        | cons p l =>
            have hp : p.1 = curB + ((P2.getLastD ⟨0, 0⟩).t - curB) :=
              hhead (by simp)
            simp only [List.map_cons, List.head?_cons, Option.mem_def,
              Option.some.injEq] at hb
            subst hb
            rw [hp, hcurB2]
            linarith
      · intro hne
        rfl

end BreathPacerUtilities

namespace BreathPacerUtilities

/-- The segments-per-breath denominator relation:
`segmentsPerBreath * (baseSegmentDur + 2000 / segmentsPerBreath)` is one
randomized breath at most, `msPerBreath + 2000`. -/
theorem segBound_random (r : BreathPacerRegime) :
    (if r.holdPos.isSome then (3:ℚ) else 2) *
        (baseSegmentDur r + 2000 / segmentsPerBreath r) =
      msPerBreath r + 2000 := by
  have hs := segmentsPerBreath_pos r
  have hs0 : segmentsPerBreath r ≠ 0 := ne_of_gt hs
  have hif : (if r.holdPos.isSome then (3:ℚ) else 2) = segmentsPerBreath r := rfl
  rw [hif]
  unfold baseSegmentDur
  field_simp

/-- One non-randomized breath is exactly `msPerBreath`. -/
theorem segBound_const (r : BreathPacerRegime) :
    (if r.holdPos.isSome then (3:ℚ) else 2) * baseSegmentDur r = msPerBreath r := by
  have hs := segmentsPerBreath_pos r
  have hs0 : segmentsPerBreath r ≠ 0 := ne_of_gt hs
  have hif : (if r.holdPos.isSome then (3:ℚ) else 2) = segmentsPerBreath r := rfl
  rw [hif]
  unfold baseSegmentDur
  field_simp

/-- For a valid regime that is either non-randomized or slower than 30
breaths per minute, all drawable segment durations have a positive lower
bound. -/
theorem segmentDur_pos_lb (r : BreathPacerRegime) (d : ℕ → ℕ)
    (hd : ∀ k, d k < 41) (hbpm1 : 1 ≤ r.breathsPerMinute)
    (hrand : r.randomize = true → r.breathsPerMinute < 30) :
    ∃ δ : ℚ, 0 < δ ∧ ∀ i, δ ≤ segmentDur r d i := by
  have hs := segmentsPerBreath_pos r
  have hbpm0 : (0:ℚ) < r.breathsPerMinute := by linarith
  by_cases hr : r.randomize
  · refine ⟨baseSegmentDur r - 2000 / segmentsPerBreath r, ?_,
      segmentDur_lower r d hd⟩
    have hbpm30 : r.breathsPerMinute < 30 := hrand hr
    have hm : (2000:ℚ) < msPerBreath r := by
      unfold msPerBreath
      rw [show (2000:ℚ) = (2 * 1000) by norm_num]
      have h2 : (2:ℚ) < 60 / r.breathsPerMinute := by
        rw [lt_div_iff₀ hbpm0]
        linarith
      nlinarith
    have heq : baseSegmentDur r - 2000 / segmentsPerBreath r =
        (msPerBreath r - 2000) / segmentsPerBreath r := by
      unfold baseSegmentDur
      field_simp
    rw [heq]
    exact div_pos (by linarith) hs
  · refine ⟨baseSegmentDur r, ?_, ?_⟩
    · have hm : (0:ℚ) < msPerBreath r := by
        unfold msPerBreath
        positivity
      unfold baseSegmentDur
      positivity
    · intro i
      simp [segmentDur, hr]

/-- For a regime list that validates, in which every randomized regime is
slower than 30 breaths per minute, some amount of fuel compiles the whole
list. -/
theorem compileGo_total (d : ℕ → ℕ) (hd : ∀ k, d k < 41)
    (rs : List BreathPacerRegime) :
    ∀ (k : ℕ) (acc : List BreathPacerPoint)
      (bds : List (ℚ × BreathPacerRegime)) (curB : ℚ),
      (∀ r ∈ rs, validateRegime r = Except.ok ()) →
      (∀ r ∈ rs, r.randomize = true → r.breathsPerMinute < 30) →
      ∃ fuel P B, compileGo fuel d rs k acc bds curB = CompileResult.ok P B := by
  induction rs with
  | nil =>
      intro k acc bds curB hval hrand
      exact ⟨0, acc, bds, by rw [compileGo]⟩
  | cons r rest ih =>
      intro k acc bds curB hval hrand
      have hv : validateRegime r = Except.ok () := hval r (by simp)
      obtain ⟨hbpm1, -, hD10, -⟩ := validateRegime_ok r hv
      obtain ⟨δ, hδ0, hδle⟩ :=
        segmentDur_pos_lb r d hd hbpm1 (hrand r (by simp))
      have h2δ : (0:ℚ) < 2 * δ := by linarith
      obtain ⟨fuel1, hfuel1⟩ : ∃ fuel1 : ℕ,
          r.durationMs ≤ (fuel1 : ℚ) * (2 * δ) := by
        refine ⟨(Int.ceil (r.durationMs / (2 * δ))).toNat, ?_⟩
        have hx0 : (0:ℚ) ≤ r.durationMs / (2 * δ) := by positivity
        have hceil : (0:ℤ) ≤ Int.ceil (r.durationMs / (2 * δ)) :=
          Int.ceil_nonneg hx0
        have hcast : ((Int.ceil (r.durationMs / (2 * δ))).toNat : ℚ) =
            ((Int.ceil (r.durationMs / (2 * δ)) : ℤ) : ℚ) := by
          exact_mod_cast Int.toNat_of_nonneg hceil
        rw [hcast]
        have hle := Int.le_ceil (r.durationMs / (2 * δ))
        have := mul_le_mul_of_nonneg_right hle h2δ.le
        calc r.durationMs = r.durationMs / (2 * δ) * (2 * δ) := by
              field_simp
          _ ≤ ((Int.ceil (r.durationMs / (2 * δ)) : ℤ) : ℚ) * (2 * δ) := this
      obtain ⟨⟨P2, t2, k2⟩, hbl⟩ :=
        breathLoop_total r.durationMs r.holdPos (segmentDur r d)
          ((acc.getLastD ⟨0, 0⟩).t) δ hδle hδ0 fuel1 k
          ((acc.getLastD ⟨0, 0⟩).t) acc (by simpa using hfuel1)
      obtain ⟨fuel2, P, B, hrest⟩ :=
        ih k2 P2 (bds ++ [(curB, r)])
          (curB + ((P2.getLastD ⟨0, 0⟩).t - curB))
          (fun r2 hr2 => hval r2 (by simp [hr2]))
          (fun r2 hr2 => hrand r2 (by simp [hr2]))
      refine ⟨max fuel1 fuel2, P, B, ?_⟩
      have hbl2 := breathLoop_mono _ _ _ _ fuel1 (max fuel1 fuel2) k _ acc _
        (le_max_left _ _) hbl
      rw [compileGo_cons_eq (max fuel1 fuel2) d r rest k acc bds curB P2 t2 k2
        hv hbl2]
      exact compileGo_mono d rest fuel2 (max fuel1 fuel2) k2 P2 _ _ P B
        (le_max_right _ _) hrest

end BreathPacerUtilities

namespace BreathPacerUtilities

theorem findBracket_none_of_all_lt (t : ℚ) :
    ∀ (points : List BreathPacerPoint), (∀ p ∈ points, p.t < t) →
      findBracket points t = none := by
  intro points
  induction points with
  | nil => intro _; rfl
  | cons p rest ih =>
      intro hall
      cases rest with
      | nil => rfl
      | cons q rest2 =>
          rw [findBracket]
          rw [if_neg]
          · exact ih (fun x hx => hall x (by simp [hx]))
          · rintro ⟨-, h2⟩
            have := hall q (by simp)
            linarith

theorem findBracket_none_of_all_gt (t : ℚ) :
    ∀ (points : List BreathPacerPoint), (∀ p ∈ points, t < p.t) →
      findBracket points t = none := by
  intro points
  induction points with
  | nil => intro _; rfl
  | cons p rest ih =>
      intro hall
      cases rest with
      | nil => rfl
      | cons q rest2 =>
          rw [findBracket]
          rw [if_neg]
          · exact ih (fun x hx => hall x (by simp [hx]))
          · rintro ⟨h1, -⟩
            have := hall p (by simp)
            linarith

theorem chainLe_le_getLast :
    ∀ (l : List ℚ), List.Chain' (· ≤ ·) l → ∀ (hne : l ≠ []) (x : ℚ),
      x ∈ l → x ≤ l.getLast hne := by
  intro l
  induction l with
  | nil => intro _ hne; exact absurd rfl hne
  | cons a l ih =>
      intro hc hne x hx
      cases l with
      | nil =>
          simp at hx
          subst hx
          simp [List.getLast]
      | cons b l2 =>
          rw [List.getLast_cons (by simp)]
          rcases List.mem_cons.mp hx with rfl | hx2
          · have hab : x ≤ b := (List.chain'_cons.mp hc).1
            have hb := ih hc.tail (by simp) b (by simp)
            linarith
          · exact ih hc.tail (by simp) x hx2

end BreathPacerUtilities

/-! ## Claim theorems -/

open BreathPacerUtilities

/-- C1: the claim (and the repo test suite) requires regimes with
`breathsPerMinute = 1` to be rejected, but the code's `validateRegime` checks
`breathsPerMinute < 1` and accepts the otherwise-valid regime
`durationMs = 60000, breathsPerMinute = 1`: evaluation of the code at the
failing input returns success instead of a ValidationError. -/
theorem C1_code_eval :
    validateRegime ⟨60000, 1, none, false⟩ = Except.ok () := by
  norm_num [validateRegime, msPerBreath]

/-- C2: the claim is false: for the regime
`durationMs = 10000, breathsPerMinute = 10, randomize = false` the loop runs
while accumulated time is below 10000, so one breath (ending at 6000) is not
enough and a second whole breath is generated; the compiled track is the
five-point track ending at 12000, not the claimed three-point track ending
at 6000. -/
theorem C2_counterexample :
    regimesToInstructions 2 (fun _ => 0) [⟨10000, 10, none, false⟩] =
      CompileResult.ok
        [⟨0, 0⟩, ⟨3000, 1⟩, ⟨6000, 0⟩, ⟨9000, 1⟩, ⟨12000, 0⟩]
        [(0, ⟨10000, 10, none, false⟩)] ∧
    ([⟨0, 0⟩, ⟨3000, 1⟩, ⟨6000, 0⟩, ⟨9000, 1⟩, ⟨12000, 0⟩] :
        List BreathPacerPoint) ≠ [⟨0, 0⟩, ⟨3000, 1⟩, ⟨6000, 0⟩] := by
  constructor
  · norm_num [regimesToInstructions, compileGo, validateRegime, breathLoop,
      breathStep, segmentDur, baseSegmentDur, msPerBreath, segmentsPerBreath]
  · simp

/-- C2 (amended): compiling the single regime
`durationMs = 10000, breathsPerMinute = 10, randomize = false` yields exactly
two whole breaths: the track `[(0,0),(3000,1),(6000,0),(9000,1),(12000,0)]`
with the single boundary 0 (shown at fuel 2; by fuel monotonicity the same
value results for any larger fuel, and no draws are consumed since the regime
is not randomized). -/
theorem C2_amended_track :
    regimesToInstructions 2 (fun _ => 0) [⟨10000, 10, none, false⟩] =
      CompileResult.ok
        [⟨0, 0⟩, ⟨3000, 1⟩, ⟨6000, 0⟩, ⟨9000, 1⟩, ⟨12000, 0⟩]
        [(0, ⟨10000, 10, none, false⟩)] := by
  norm_num [regimesToInstructions, compileGo, validateRegime, breathLoop,
    breathStep, segmentDur, baseSegmentDur, msPerBreath, segmentsPerBreath]

/-- C6: for every non-empty time-ordered track and every instant strictly
after the last point, `guideHeight` returns exactly the last point's height
(the fallback pair `(last, last at infinity)` has slope zero in the source,
hence flat extrapolation). -/
theorem C6_flat_extrapolation (points : List BreathPacerPoint) (t : ℚ)
    (hne : points ≠ [])
    (hsorted : List.Chain' (· ≤ ·) (points.map BreathPacerPoint.t))
    (ht : (points.getLast hne).t < t) :
    guideHeight points t = (points.getLast hne).h := by
  have hmapne : points.map BreathPacerPoint.t ≠ [] := by
    simp [hne]
  have hall : ∀ p ∈ points, p.t < t := by
    intro p hp
    have hmem : p.t ∈ points.map BreathPacerPoint.t := List.mem_map_of_mem _ hp
    have hle := chainLe_le_getLast _ hsorted hmapne _ hmem
    rw [List.getLast_map _ _ hmapne] at hle
    exact lt_of_le_of_lt hle ht
  have hfb := findBracket_none_of_all_lt t points hall
  unfold guideHeight
  rw [hfb]
  rw [List.getLastD_eq_getLast?, List.getLast?_eq_getLast points hne]
  rfl

/-- C6 witness: on the compiled track `[(0,0),(3000,1),(6000,0)]` at
`t = 7000`, the guide height is the last height 0. -/
theorem C6_flat_extrapolation_witness :
    guideHeight [⟨0, 0⟩, ⟨3000, 1⟩, ⟨6000, 0⟩] 7000 = 0 := by
  have h := C6_flat_extrapolation [⟨0, 0⟩, ⟨3000, 1⟩, ⟨6000, 0⟩] 7000
    (by simp)
    (by norm_num [List.chain'_cons])
    (by norm_num [List.getLast])
  rw [h]
  norm_num [List.getLast]

/-- C7: the claim is false for instants strictly between the sentinel and the
first real point: on the compiled track `[(0,0),(3000,1),(6000,0)]` the claim
demands height 0 at `t = 1500`, but `guideHeight` linearly interpolates the
first inhale segment and returns 1/2. -/
theorem C7_counterexample :
    guideHeight [⟨0, 0⟩, ⟨3000, 1⟩, ⟨6000, 0⟩] 1500 = 1 / 2 ∧
      (1 / 2 : ℚ) ≠ 0 := by
  constructor
  · norm_num [guideHeight, findBracket]
  · norm_num

/-- C7 (amended): on a compiled-style track (sentinel `(0,0)` first, first
real point at positive time, non-decreasing times, last height 0 as every
compiled track ends with an exhale), `guideHeight` returns the sentinel
height 0 exactly at the sentinel time and at every earlier (negative)
instant; strictly between the sentinel and the first real point the height is
linearly interpolated instead. -/
theorem C7_amended_sentinel (p1 : BreathPacerPoint)
    (rest : List BreathPacerPoint) (t : ℚ)
    (hchain : List.Chain' (· ≤ ·)
      ((⟨0, 0⟩ :: p1 :: rest : List BreathPacerPoint).map BreathPacerPoint.t))
    (hpos : 0 < p1.t)
    (hlast : (((⟨0, 0⟩ :: p1 :: rest : List BreathPacerPoint)).getLastD ⟨0, 0⟩).h = 0)
    (ht : t ≤ 0) :
    guideHeight (⟨0, 0⟩ :: p1 :: rest) t = 0 := by
  rcases eq_or_lt_of_le ht with rfl | htneg
  · have hgb : findBracket (⟨0, 0⟩ :: p1 :: rest) 0 =
        some (⟨0, 0⟩, p1) := by
      rw [findBracket, if_pos]
      exact ⟨le_refl 0, hpos.le⟩
    unfold guideHeight
    rw [hgb]
    ring
  · have hpw : ∀ p ∈ (⟨0, 0⟩ :: p1 :: rest : List BreathPacerPoint), t < p.t := by
      have hpair := (List.chain'_iff_pairwise.mp hchain)
      intro p hp
      rcases List.mem_cons.mp hp with rfl | hp2
      · simpa using htneg
      · have hmem : p.t ∈ (p1 :: rest).map BreathPacerPoint.t :=
          List.mem_map_of_mem _ hp2
        have h0le : (0:ℚ) ≤ p.t := by
          have := (List.pairwise_cons.mp hpair).1 p.t (by simpa using hmem)
          simpa using this
        linarith
    have hfb := findBracket_none_of_all_gt t _ hpw
    unfold guideHeight
    rw [hfb]
    exact hlast

/-- C7 witness: on the compiled track `[(0,0),(3000,1),(6000,0)]` the guide
height at `t = -100` is the sentinel height 0. -/
theorem C7_amended_sentinel_witness :
    guideHeight [⟨0, 0⟩, ⟨3000, 1⟩, ⟨6000, 0⟩] (-100) = 0 := by
  exact C7_amended_sentinel ⟨3000, 1⟩ [⟨6000, 0⟩] (-100)
    (by norm_num [List.chain'_cons])
    (by norm_num)
    (by norm_num [List.getLastD_cons])
    (by norm_num)

namespace BreathPacer

/-- Every frame either leaves the resolver untouched or fires it while
pausing the engine and clearing the sample marker. -/
theorem update_shape (s : EngineState) (i : ℚ) :
    ((update s i).1.running = false ∧ (update s i).1.lastInstant = none ∧
      (update s i).2.2 = true) ∨
    (update s i).2.2 = false := by
  unfold update
  dsimp only
  repeat' split
  all_goals
    first
      | (right; rfl)
      | (left; exact ⟨rfl, rfl, rfl⟩)

/-- A frame on a non-running engine changes nothing and fires nothing. -/
theorem update_of_not_running (s : EngineState) (i : ℚ)
    (h : s.running = false) :
    update s i = (s, [], false) := by
  simp [update, notify, h]

end BreathPacer

/-- C3: the claim is false: `start()` does not rebuild the boundary queue.
Starting an engine whose schedule (compiled from one regime) is `[(0, r)]`,
running one frame (which consumes the boundary), and calling `start()` again
leaves the pending queue empty, not restored to the compiled schedule. -/
theorem C3_counterexample :
    BreathPacer.setInstructions 2 (fun _ => 0) [⟨10000, 10, none, false⟩]
        ⟨[⟨0, 0⟩], [], false, 0, none⟩ =
      some ⟨[⟨0, 0⟩, ⟨3000, 1⟩, ⟨6000, 0⟩, ⟨9000, 1⟩, ⟨12000, 0⟩],
        [(0, ⟨10000, 10, none, false⟩)], false, 0, none⟩ ∧
    (BreathPacer.start ((BreathPacer.update (BreathPacer.start
        ⟨[⟨0, 0⟩, ⟨3000, 1⟩, ⟨6000, 0⟩, ⟨9000, 1⟩, ⟨12000, 0⟩],
          [(0, ⟨10000, 10, none, false⟩)], false, 0, none⟩) 0).1)).regimeBoundaries
      = [] ∧
    ([] : List (ℚ × BreathPacerRegime)) ≠ [(0, ⟨10000, 10, none, false⟩)] := by
  refine ⟨?_, ?_, by simp⟩
  · norm_num [BreathPacer.setInstructions, regimesToInstructions, compileGo,
      validateRegime, breathLoop, breathStep, segmentDur, baseSegmentDur,
      msPerBreath, segmentsPerBreath]
  · norm_num [BreathPacer.start, BreathPacer.resume, BreathPacer.update,
      BreathPacer.notify, BreathPacer.pause, List.getLastD_cons]

/-- C3 (amended): `start()` resets the elapsed clock to 0, enters Running and
clears the last-sample marker, but leaves both the track and the pending
boundary queue exactly as they were (consumed boundaries are NOT restored);
the completion resolver fires only on a frame that pauses the engine, after
which the immediately following frame cannot fire it again, so each `start()`
resolver is invoked at most once. -/
theorem C3_amended_start (s : EngineState) (i j : ℚ)
    (h : (BreathPacer.update s i).2.2 = true) :
    (BreathPacer.start s).t = 0 ∧
    (BreathPacer.start s).running = true ∧
    (BreathPacer.start s).lastInstant = none ∧
    (BreathPacer.start s).points = s.points ∧
    (BreathPacer.start s).regimeBoundaries = s.regimeBoundaries ∧
    ((BreathPacer.update s i).1).running = false ∧
    (BreathPacer.update ((BreathPacer.update s i).1) j).2.2 = false := by
  refine ⟨rfl, rfl, rfl, rfl, rfl, ?_, ?_⟩
  · rcases BreathPacer.update_shape s i with ⟨hrun, -, -⟩ | hfalse
    · exact hrun
    · rw [h] at hfalse
      cases hfalse
  · rcases BreathPacer.update_shape s i with ⟨hrun, -, -⟩ | hfalse
    · rw [BreathPacer.update_of_not_running _ j hrun]
    · rw [h] at hfalse
      cases hfalse

/-- C3 witness: a concrete running engine past the end of its track fires the
resolver on the next frame and is paused by it. -/
theorem C3_amended_start_witness :
    (BreathPacer.update (⟨[⟨0, 0⟩], [], true, 7000, none⟩ : EngineState) 5).2.2
        = true ∧
    ((BreathPacer.update (⟨[⟨0, 0⟩], [], true, 7000, none⟩ : EngineState) 5).1).running
        = false := by
  have hres : (BreathPacer.update
      (⟨[⟨0, 0⟩], [], true, 7000, none⟩ : EngineState) 5).2.2 = true := by
    norm_num [BreathPacer.update, BreathPacer.notify, BreathPacer.pause,
      List.getLastD_cons]
  exact ⟨hres,
    (C3_amended_start (⟨[⟨0, 0⟩], [], true, 7000, none⟩ : EngineState) 5 6
      hres).2.2.2.2.2.1⟩

/-- C9: installing a new regime list replaces exactly the track points and
the boundary schedule (with the output of the compiler on the new list); the
elapsed clock, the running flag and the last-sample-instant marker are
unchanged, whatever state the engine was in. -/
theorem C9_setInstructions_frame (fuel : ℕ) (d : ℕ → ℕ)
    (regimes : List BreathPacerRegime) (s s2 : EngineState)
    (h : BreathPacer.setInstructions fuel d regimes s = some s2) :
    s2.t = s.t ∧ s2.running = s.running ∧ s2.lastInstant = s.lastInstant ∧
    regimesToInstructions fuel d regimes =
      CompileResult.ok s2.points s2.regimeBoundaries := by
  unfold BreathPacer.setInstructions at h
  split at h
  next pts bds heq =>
    simp only [Option.some.injEq] at h
    subst h
    exact ⟨rfl, rfl, rfl, heq⟩
  next hne =>
    cases h

/-- C9 witness: installing one concrete regime in a running engine replaces
the track and schedule and leaves clock, running flag and sample marker
untouched. -/
theorem C9_setInstructions_frame_witness :
    BreathPacer.setInstructions 2 (fun _ => 0) [⟨10000, 10, none, false⟩]
        ⟨[], [], true, 42, some 7⟩ =
      some ⟨[⟨0, 0⟩, ⟨3000, 1⟩, ⟨6000, 0⟩, ⟨9000, 1⟩, ⟨12000, 0⟩],
        [(0, ⟨10000, 10, none, false⟩)], true, 42, some 7⟩ ∧
    (42 : ℚ) = 42 ∧ true = true ∧ (some (7:ℚ)) = some 7 := by
  have hset : BreathPacer.setInstructions 2 (fun _ => 0)
      [⟨10000, 10, none, false⟩] ⟨[], [], true, 42, some 7⟩ =
      some ⟨[⟨0, 0⟩, ⟨3000, 1⟩, ⟨6000, 0⟩, ⟨9000, 1⟩, ⟨12000, 0⟩],
        [(0, ⟨10000, 10, none, false⟩)], true, 42, some 7⟩ := by
    norm_num [BreathPacer.setInstructions, regimesToInstructions, compileGo,
      validateRegime, breathLoop, breathStep, segmentDur, baseSegmentDur,
      msPerBreath, segmentsPerBreath]
  refine ⟨hset, ?_, rfl, rfl⟩
  have := (C9_setInstructions_frame 2 (fun _ => 0) [⟨10000, 10, none, false⟩]
    ⟨[], [], true, 42, some 7⟩
    ⟨[⟨0, 0⟩, ⟨3000, 1⟩, ⟨6000, 0⟩, ⟨9000, 1⟩, ⟨12000, 0⟩],
      [(0, ⟨10000, 10, none, false⟩)], true, 42, some 7⟩ hset).1
  exact this

/-- C4: the claim is false: validation does not make every segment duration
positive.  The regime `durationMs = 10000, breathsPerMinute = 60,
randomize = true` passes validation, its 41-entry sampled range makes both
index 0 and index 40 admissible draws, yet drawing index 0 first (value
-500 ms) and index 40 afterwards compiles successfully to a track whose
times are not strictly increasing (the second point is at t = -500 < 0). -/
theorem C4_counterexample :
    validateRegime ⟨10000, 60, none, true⟩ = Except.ok () ∧
    0 < (msPerSegmentRange ⟨10000, 60, none, true⟩).length ∧
    40 < (msPerSegmentRange ⟨10000, 60, none, true⟩).length ∧
    regimesToInstructions 4 (fun k => if k = 0 then 0 else 40)
        [⟨10000, 60, none, true⟩] =
      CompileResult.ok
        [⟨0, 0⟩, ⟨-500, 1⟩, ⟨1000, 0⟩, ⟨2500, 1⟩, ⟨4000, 0⟩, ⟨5500, 1⟩,
          ⟨7000, 0⟩, ⟨8500, 1⟩, ⟨10000, 0⟩]
        [(0, ⟨10000, 60, none, true⟩)] ∧
    ¬ List.Chain' (· < ·)
        (([⟨0, 0⟩, ⟨-500, 1⟩, ⟨1000, 0⟩, ⟨2500, 1⟩, ⟨4000, 0⟩, ⟨5500, 1⟩,
          ⟨7000, 0⟩, ⟨8500, 1⟩, ⟨10000, 0⟩] :
          List BreathPacerPoint).map BreathPacerPoint.t) := by
  refine ⟨?_, ?_, ?_, ?_, ?_⟩
  · norm_num [validateRegime, msPerBreath]
  · rw [msPerSegmentRange_eq]; simp
  · rw [msPerSegmentRange_eq]; simp
  · norm_num [regimesToInstructions, compileGo, validateRegime, breathLoop,
      breathStep, segmentDur, msPerSegmentRange_getElem, baseSegmentDur,
      msPerBreath, segmentsPerBreath]
  · intro hc
    norm_num [List.chain'_cons] at hc

/-- C4 (amended): the compiled track has strictly increasing times whenever
every segment duration drawable by the regime list is positive (validation
guarantees this for non-randomized regimes, but randomized regimes with
`breathsPerMinute ≥ 30` admit zero or negative draws). -/
theorem C4_amended_strict_mono (fuel : ℕ) (d : ℕ → ℕ)
    (regimes : List BreathPacerRegime) (P : List BreathPacerPoint)
    (B : List (ℚ × BreathPacerRegime))
    (hpos : ∀ r ∈ regimes, ∀ i, 0 < segmentDur r d i)
    (hok : regimesToInstructions fuel d regimes = CompileResult.ok P B) :
    List.Chain' (· < ·) (P.map BreathPacerPoint.t) := by
  exact (compileGo_chain d regimes fuel 0 [⟨0, 0⟩] [] 0 P B hpos hok
    (by simp) (by simp)).2

/-- C4 witness: the non-randomized 10-breaths-per-minute regime has all
segment durations equal to 3000 > 0, and its compiled track is strictly
increasing. -/
theorem C4_amended_strict_mono_witness :
    List.Chain' (· < ·)
      (([⟨0, 0⟩, ⟨3000, 1⟩, ⟨6000, 0⟩, ⟨9000, 1⟩, ⟨12000, 0⟩] :
        List BreathPacerPoint).map BreathPacerPoint.t) := by
  refine C4_amended_strict_mono 2 (fun _ => 0) [⟨10000, 10, none, false⟩]
    [⟨0, 0⟩, ⟨3000, 1⟩, ⟨6000, 0⟩, ⟨9000, 1⟩, ⟨12000, 0⟩]
    [(0, ⟨10000, 10, none, false⟩)] ?_ ?_
  · intro r hr i
    simp only [List.mem_singleton] at hr
    subst hr
    norm_num [segmentDur, baseSegmentDur, msPerBreath, segmentsPerBreath]
  · norm_num [regimesToInstructions, compileGo, validateRegime, breathLoop,
      breathStep, segmentDur, baseSegmentDur, msPerBreath, segmentsPerBreath]

/-- C5: for every non-empty regime list and draw stream whose compilation
succeeds, the boundary schedule is monotone non-decreasing, its first
boundary is 0, and boundary `i` is at least the sum of the requested
durations of the regimes before it (boundaries advance by realized duration,
which is at least the requested duration). -/
theorem C5_boundary_schedule (fuel : ℕ) (d : ℕ → ℕ)
    (regimes : List BreathPacerRegime) (P : List BreathPacerPoint)
    (B : List (ℚ × BreathPacerRegime))
    (hne : regimes ≠ [])
    (hok : regimesToInstructions fuel d regimes = CompileResult.ok P B) :
    List.Chain' (· ≤ ·) (B.map Prod.fst) ∧
    B.head?.map Prod.fst = some 0 ∧
    ∀ (i : ℕ) (hi : i < B.length),
      ((regimes.take i).map BreathPacerRegime.durationMs).sum ≤
        (B.get ⟨i, hi⟩).1 := by
  obtain ⟨newBds, hBeq, hlen, hidx, hchain, hhead⟩ :=
    compileGo_boundary_spec d regimes fuel 0 [⟨0, 0⟩] [] 0 P B hok rfl
  simp only [List.nil_append] at hBeq
  subst hBeq
  refine ⟨hchain, ?_, ?_⟩
  · cases B with
    | nil =>
        rw [List.length_nil] at hlen
        exact absurd (List.eq_nil_of_length_eq_zero hlen.symm) hne
    | cons b l =>
        have hb := hhead (by simp)
        simp only [List.head] at hb
        simp [hb]
  · intro i hi
    have := hidx i hi
    simpa using this

/-- C5 witness: two concrete regimes compile to the boundary schedule
`[(0, r1), (12000, r2)]`: monotone, first boundary 0, and the second boundary
12000 is at least the requested 10000 of the first regime. -/
theorem C5_boundary_schedule_witness :
    regimesToInstructions 2 (fun _ => 0)
        [⟨10000, 10, none, false⟩, ⟨10000, 6, none, false⟩] =
      CompileResult.ok
        [⟨0, 0⟩, ⟨3000, 1⟩, ⟨6000, 0⟩, ⟨9000, 1⟩, ⟨12000, 0⟩,
          ⟨17000, 1⟩, ⟨22000, 0⟩]
        [(0, ⟨10000, 10, none, false⟩), (12000, ⟨10000, 6, none, false⟩)] ∧
    List.Chain' (· ≤ ·)
      (([(0, ⟨10000, 10, none, false⟩), (12000, ⟨10000, 6, none, false⟩)] :
        List (ℚ × BreathPacerRegime)).map Prod.fst) ∧
    ([(0, ⟨10000, 10, none, false⟩), (12000, ⟨10000, 6, none, false⟩)] :
      List (ℚ × BreathPacerRegime)).head?.map Prod.fst = some 0 := by
  have hok : regimesToInstructions 2 (fun _ => 0)
      [⟨10000, 10, none, false⟩, ⟨10000, 6, none, false⟩] =
      CompileResult.ok
        [⟨0, 0⟩, ⟨3000, 1⟩, ⟨6000, 0⟩, ⟨9000, 1⟩, ⟨12000, 0⟩,
          ⟨17000, 1⟩, ⟨22000, 0⟩]
        [(0, ⟨10000, 10, none, false⟩), (12000, ⟨10000, 6, none, false⟩)] := by
    norm_num [regimesToInstructions, compileGo, validateRegime, breathLoop,
      breathStep, segmentDur, baseSegmentDur, msPerBreath, segmentsPerBreath,
      List.getLastD_cons]
  have hc := C5_boundary_schedule 2 (fun _ => 0)
    [⟨10000, 10, none, false⟩, ⟨10000, 6, none, false⟩] _ _ (by simp) hok
  exact ⟨hok, hc.1, hc.2.1⟩

/-- C8: the claim is false for randomized regimes: the regime
`durationMs = 30000, breathsPerMinute = 2, randomize = true` passes
validation, the draws 14000, 14000 (index 0 twice) leave the first breath at
28000 < 30000, and two maximal draws 16000 (index 40) end the second breath
at 60000; the realized duration 60000 exceeds the claimed bound
`ceil(30000/30000) * (30000 + 2000) = 32000`. -/
theorem C8_counterexample :
    validateRegime ⟨30000, 2, none, true⟩ = Except.ok () ∧
    0 < (msPerSegmentRange ⟨30000, 2, none, true⟩).length ∧
    40 < (msPerSegmentRange ⟨30000, 2, none, true⟩).length ∧
    regimesToInstructions 2 (fun k => if k < 2 then 0 else 40)
        [⟨30000, 2, none, true⟩] =
      CompileResult.ok
        [⟨0, 0⟩, ⟨14000, 1⟩, ⟨28000, 0⟩, ⟨44000, 1⟩, ⟨60000, 0⟩]
        [(0, ⟨30000, 2, none, true⟩)] ∧
    ¬ ((([⟨0, 0⟩, ⟨14000, 1⟩, ⟨28000, 0⟩, ⟨44000, 1⟩, ⟨60000, 0⟩] :
          List BreathPacerPoint).getLastD ⟨0, 0⟩).t ≤
        ((Int.ceil ((30000:ℚ) / msPerBreath ⟨30000, 2, none, true⟩) : ℤ) : ℚ) *
          (msPerBreath ⟨30000, 2, none, true⟩ + 2000)) := by
  refine ⟨?_, ?_, ?_, ?_, ?_⟩
  · norm_num [validateRegime, msPerBreath]
  · rw [msPerSegmentRange_eq]; simp
  · rw [msPerSegmentRange_eq]; simp
  · norm_num [regimesToInstructions, compileGo, validateRegime, breathLoop,
      breathStep, segmentDur, msPerSegmentRange_getElem, baseSegmentDur,
      msPerBreath, segmentsPerBreath]
  · intro hcon
    norm_num [msPerBreath, List.getLastD_cons] at hcon

/-- C8 (amended): for a single regime whose compilation succeeds, the
realized track duration is at least the requested `durationMs`; when not
randomized it equals `ceil(durationMs / msPerBreath) * msPerBreath` (hence
the claimed non-randomized bound holds with equality); when randomized (with
admissible draws) it is bounded by `durationMs + msPerBreath + 2000` — one
maximal breath past the requested duration — rather than by the claimed
`ceil(durationMs/msPerBreath) * (msPerBreath + 2000)`. -/
theorem C8_amended_duration (fuel : ℕ) (d : ℕ → ℕ) (r : BreathPacerRegime)
    (P : List BreathPacerPoint) (B : List (ℚ × BreathPacerRegime))
    (hok : regimesToInstructions fuel d [r] = CompileResult.ok P B)
    (hd : r.randomize = true → ∀ k, d k < 41) :
    r.durationMs ≤ (P.getLastD ⟨0, 0⟩).t ∧
    (r.randomize = false →
      (P.getLastD ⟨0, 0⟩).t =
        ((Int.ceil (r.durationMs / msPerBreath r) : ℤ) : ℚ) * msPerBreath r) ∧
    (r.randomize = true →
      (P.getLastD ⟨0, 0⟩).t < r.durationMs + msPerBreath r + 2000) := by
  unfold regimesToInstructions at hok
  obtain ⟨hv, P2, t2, k2, hbl, hrest⟩ :=
    compileGo_cons_ok fuel d r [] 0 [⟨0, 0⟩] [] 0 P B hok
  rw [compileGo] at hrest
  simp only [CompileResult.ok.injEq] at hrest
  obtain ⟨rfl, -⟩ := hrest
  have h0 : (([⟨0, 0⟩] : List BreathPacerPoint).getLastD ⟨0, 0⟩).t = 0 := rfl
  have hlast : (P2.getLastD ⟨0, 0⟩).t = t2 :=
    breathLoop_getLastD _ _ _ _ ⟨0, 0⟩ fuel 0 _ [⟨0, 0⟩] P2 t2 k2 hbl rfl
  have hexit := breathLoop_exit _ _ _ _ fuel 0 _ [⟨0, 0⟩] P2 t2 k2 hbl
  rw [h0, sub_zero] at hexit
  obtain ⟨hbpm1, -, hD10, -⟩ := validateRegime_ok r hv
  have hbpm0 : (0:ℚ) < r.breathsPerMinute := by linarith
  have hm : 0 < msPerBreath r := by
    unfold msPerBreath
    positivity
  refine ⟨?_, ?_, ?_⟩
  · rw [hlast]
    linarith
  · intro hr
    have hseg : segmentDur r d = fun _ => baseSegmentDur r := by
      simp [segmentDur, hr]
    rw [hseg] at hbl
    obtain ⟨n, hEnd, hzero, hmin⟩ :=
      breathLoop_const_spec _ _ _ _ fuel 0 _ [⟨0, 0⟩] P2 t2 k2 hbl
    rw [h0] at hEnd
    rw [segBound_const r] at hEnd
    have hn0 : n ≠ 0 := by
      intro hcon
      exact (hzero hcon) (by simp only [sub_self]; linarith)
    obtain ⟨m1, rfl⟩ : ∃ m1, n = m1 + 1 := ⟨n - 1, by omega⟩
    have hminj := hmin m1 rfl
    rw [h0, segBound_const r] at hminj
    simp only [sub_zero] at hminj
    have ht2 : t2 = ((m1 + 1 : ℕ) : ℚ) * msPerBreath r := by
      rw [hEnd]
      push_cast
      ring
    have h1 : Int.ceil (r.durationMs / msPerBreath r) ≤ ((m1 + 1 : ℕ) : ℤ) := by
      apply Int.ceil_le.mpr
      rw [div_le_iff₀ hm]
      push_cast
      rw [ht2] at hexit
      push_cast at hexit
      linarith
    have h2 : ((m1 + 1 : ℕ) : ℤ) ≤ Int.ceil (r.durationMs / msPerBreath r) := by
      have hlt : ((m1 : ℤ) : ℚ) < r.durationMs / msPerBreath r := by
        rw [lt_div_iff₀ hm]
        push_cast
        linarith
      have := Int.lt_ceil.mpr hlt
      push_cast
      omega
    have hceil : ((Int.ceil (r.durationMs / msPerBreath r) : ℤ) : ℚ) =
        ((m1 + 1 : ℕ) : ℚ) := by
      exact_mod_cast congrArg (Int.cast : ℤ → ℚ) (le_antisymm h1 h2)
    rw [hlast, ht2, hceil]
  · intro hr
    have hM := segmentDur_upper r d (hd hr)
    have hguard : (([⟨0, 0⟩] : List BreathPacerPoint).getLastD ⟨0, 0⟩).t -
        (([⟨0, 0⟩] : List BreathPacerPoint).getLastD ⟨0, 0⟩).t < r.durationMs := by
      simp only [sub_self]
      linarith
    have hup := breathLoop_upper _ _ _ _
      (baseSegmentDur r + 2000 / segmentsPerBreath r) hM fuel 0 _ [⟨0, 0⟩]
      P2 t2 k2 hbl hguard
    rw [h0, segBound_random r] at hup
    rw [hlast]
    linarith

/-- C8 witness: the non-randomized regime `durationMs = 10000,
breathsPerMinute = 10` compiles (fuel 2) to a track whose realized duration
12000 is at least the requested 10000. -/
theorem C8_amended_duration_witness :
    (10000 : ℚ) ≤
      (([⟨0, 0⟩, ⟨3000, 1⟩, ⟨6000, 0⟩, ⟨9000, 1⟩, ⟨12000, 0⟩] :
        List BreathPacerPoint).getLastD ⟨0, 0⟩).t := by
  have hok : regimesToInstructions 2 (fun _ => 0) [⟨10000, 10, none, false⟩] =
      CompileResult.ok
        [⟨0, 0⟩, ⟨3000, 1⟩, ⟨6000, 0⟩, ⟨9000, 1⟩, ⟨12000, 0⟩]
        [(0, ⟨10000, 10, none, false⟩)] := by
    norm_num [regimesToInstructions, compileGo, validateRegime, breathLoop,
      breathStep, segmentDur, baseSegmentDur, msPerBreath, segmentsPerBreath]
  exact (C8_amended_duration 2 (fun _ => 0) ⟨10000, 10, none, false⟩ _ _ hok
    (by intro hcon; simp at hcon)).1

/-- C10: the claim is false: the regime `durationMs = 10000,
breathsPerMinute = 60, randomize = true` passes validation and index 0 is an
admissible draw, yet the constant draw stream picking index 0 (segment
duration -500 ms) makes the accumulated time decrease forever, so the
per-regime generation loop never terminates: compilation times out for every
amount of fuel. -/
theorem C10_counterexample :
    validateRegime ⟨10000, 60, none, true⟩ = Except.ok () ∧
    0 < (msPerSegmentRange ⟨10000, 60, none, true⟩).length ∧
    ∀ fuel : ℕ,
      regimesToInstructions fuel (fun _ => 0) [⟨10000, 60, none, true⟩] =
        CompileResult.timeout := by
  have hv : validateRegime ⟨10000, 60, none, true⟩ = Except.ok () := by
    norm_num [validateRegime, msPerBreath]
  refine ⟨hv, ?_, ?_⟩
  · rw [msPerSegmentRange_eq]; simp
  · intro fuel
    have hseg : ∀ i, segmentDur ⟨10000, 60, none, true⟩ (fun _ => 0) i ≤ 0 := by
      intro i
      have : segmentDur ⟨10000, 60, none, true⟩ (fun _ => 0) i = -500 := by
        simp only [segmentDur, if_true, List.getD_eq_getElem?_getD]
        rw [msPerSegmentRange_getElem _ 0 (by norm_num)]
        norm_num [baseSegmentDur, msPerBreath, segmentsPerBreath]
      rw [this]
      norm_num
    have hnone := breathLoop_none 10000 none
      (segmentDur ⟨10000, 60, none, true⟩ (fun _ => 0))
      ((([⟨0, 0⟩] : List BreathPacerPoint).getLastD ⟨0, 0⟩).t) hseg fuel 0
      ((([⟨0, 0⟩] : List BreathPacerPoint).getLastD ⟨0, 0⟩).t) [⟨0, 0⟩]
      (by simp only [sub_self]; norm_num)
    rw [regimesToInstructions, compileGo, hv, hnone]

/-- C10 (amended): compilation is total — some fuel compiles the whole list —
for every regime list that passes validation in which every randomized regime
is slower than 30 breaths per minute (so that all admissible segment
durations are positive); for randomized regimes at 30 bpm or faster an
admissible draw stream can make the loop run forever. -/
theorem C10_amended_termination (d : ℕ → ℕ) (regimes : List BreathPacerRegime)
    (hd : ∀ k, d k < 41)
    (hval : ∀ r ∈ regimes, validateRegime r = Except.ok ())
    (hrand : ∀ r ∈ regimes, r.randomize = true → r.breathsPerMinute < 30) :
    ∃ fuel P B, regimesToInstructions fuel d regimes = CompileResult.ok P B := by
  unfold regimesToInstructions
  exact compileGo_total d hd regimes 0 [⟨0, 0⟩] [] 0 hval hrand

/-- C10 witness: the single non-randomized 10-breaths-per-minute regime
compiles with some fuel. -/
theorem C10_amended_termination_witness :
    ∃ fuel P B, regimesToInstructions fuel (fun _ => 0)
      [⟨10000, 10, none, false⟩] = CompileResult.ok P B := by
  refine C10_amended_termination (fun _ => 0) [⟨10000, 10, none, false⟩]
    (fun _ => by norm_num) ?_ ?_
  · intro r hr
    simp only [List.mem_singleton] at hr
    subst hr
    norm_num [validateRegime, msPerBreath]
  · intro r hr hcon
    simp only [List.mem_singleton] at hr
    subst hr
    simp at hcon
